import Mathlib

/-!
Verification of the directory packing / archive extraction core of
`google/zip.cc` (Chromium zlib wrapper).

Paths are modelled as their lists of components.  The filesystem seen by the
`FileAccessor` is a finite tree.  The minizip/ZipReader collaborators are
modelled by boolean outcome oracles attached to the data they act on, as
described by the spec's "Archive Writer capability" / "Archive Reader
capability" interfaces.
-/

namespace GoogleZip

/-- A filesystem path (base::FilePath), as its list of components. -/
abbrev FPath := List String

/-- base::FilePath::BaseName — the final path component (`""` for an empty
path). -/
def baseName (p : FPath) : String := p.getLastD ""

/-- IsHiddenFile (zip.cc 90-92): `file_path.BaseName().value()[0] == '.'`.
For an empty basename the C++ `operator[]` at index 0 reads the null
terminator, which compares unequal to `'.'`; `headD` with the NUL character
models that read. -/
def isHiddenFile (p : FPath) : Bool :=
  (baseName p).data.headD (Char.ofNat 0) == '.'

/-- ExcludeNoFilesFilter (zip.cc 94-96). -/
def excludeNoFilesFilter (_ : FPath) : Bool := true

/-- ExcludeHiddenFilesFilter (zip.cc 98-100). -/
def excludeHiddenFilesFilter (p : FPath) : Bool := !isHiddenFile p

/-- The directory tree rooted at some path, as enumerated by
DirectFileAccessor::ListDirectoryContent: a node is a plain file or a
directory with a (listing-ordered) sequence of named children. -/
inductive FSTree where
  | file : FSTree
  | dir (children : List (String × FSTree)) : FSTree

/-- The immediate children a ListDirectoryContent call reports. -/
def FSTree.childList : FSTree → List (String × FSTree)
  | .file => []
  | .dir cs => cs

/-- base::DirectoryExists for a node of the tree. -/
def FSTree.isDirB : FSTree → Bool
  | .file => false
  | .dir _ => true

/-- FileAccessor::DirectoryContentEntry as it sits in the traversal work list
(zip.cc 189-191): the C++ entry stores the absolute path and its
`is_directory` flag.  We keep the path relative to `src_dir` (the absolute
path is `srcDir ++ rel`) and also carry the subtree rooted there, standing
for the accessor used to enumerate it. -/
structure QEntry where
  rel : FPath
  isDir : Bool
  tree : FSTree

/-- The slice of ZipParams that the traversal of Zip reads (zip.cc 153-216):
source directory, include_hidden_files, and the optional filter callback
(a null base::Callback is `none`). -/
structure ZipCfg where
  srcDir : FPath
  includeHidden : Bool
  filter? : Option (FPath → Bool)

/-- The rejection condition of zip.cc 196-197 applied to a non-root entry:
`(!params.include_hidden_files() && IsHiddenFile(entry_path)) ||
 (filter_callback && !filter_callback.Run(entry_path))`. -/
def rejectedByFilter (cfg : ZipCfg) (entryPath : FPath) : Bool :=
  (!cfg.includeHidden && isHiddenFile entryPath) ||
    (match cfg.filter? with
     | some f => !f entryPath
     | none => false)

/-- ListDirectoryContent of a directory turned into work-list entries
(zip.cc 211-213): each child named `n` of the entry at `rel` becomes an entry
at `rel ++ [n]` with its DirectoryExists flag. -/
def childEntries (rel : FPath) : List (String × FSTree) → List QEntry
  | [] => []
  | (n, t) :: cs => ⟨rel ++ [n], t.isDirB, t⟩ :: childEntries rel cs

mutual
/-- Number of nodes of a tree (counting the root). -/
def FSTree.sz : FSTree → Nat
  | .file => 1
  | .dir cs => 1 + szList cs
/-- Number of nodes of a forest of named subtrees. -/
def szList : List (String × FSTree) → Nat
  | [] => 0
  | (_, t) :: cs => FSTree.sz t + szList cs
end

/-- Total size of the subtrees still queued; an upper bound on the number of
loop iterations left, used as fuel for the traversal loop. -/
def qSize (q : List QEntry) : Nat := (q.map fun e => e.tree.sz).sum

/-- The entry work-list loop of Zip in full-tree mode (zip.cc 193-215),
restricted to the part of the list after the seed: every entry here is
filtered (zip.cc 195-199), an accepted entry's relative path is pushed onto
`all_files` (zip.cc 201-208), and an accepted directory has its listing
appended to the tail of the work list (zip.cc 210-214).  `fuel` bounds the
number of iterations; `zipTraverse` supplies enough fuel that the 0 case is
never reached (see `zipAuxF_fuel_irrelevant`). -/
def zipAuxF (cfg : ZipCfg) : Nat → List QEntry → List FPath
  | 0, _ => []
  | _ + 1, [] => []
  | fuel + 1, e :: rest =>
    if rejectedByFilter cfg (cfg.srcDir ++ e.rel) then
      zipAuxF cfg fuel rest
    else
      e.rel ::
        zipAuxF cfg fuel
          (if e.isDir then rest ++ childEntries e.rel e.tree.childList else rest)

/-- Full-tree file discovery of Zip (zip.cc 183-216) for `params.src_dir()`
rooted at `root`: the work list is seeded with
`(src_dir, is_directory = true)`; the seed is never filtered (zip.cc 195)
and never added to the output (zip.cc 201), and — its stored flag being
`true` — its listing is what seeds the rest of the walk (zip.cc 210-214). -/
def zipTraverse (cfg : ZipCfg) (root : FSTree) : List FPath :=
  zipAuxF cfg (qSize (childEntries [] root.childList)) (childEntries [] root.childList)

/-- Spec reading of the same loop ("Entry Filter: a predicate over a relative
path"; spec §4.2 step 3: "compute its path relative to source_directory; if
not passing the active filter … skip").  Identical to `zipAuxF` except that
the rejection test receives the relative path instead of the absolute entry
path. -/
def zipAuxSpecF (cfg : ZipCfg) : Nat → List QEntry → List FPath
  | 0, _ => []
  | _ + 1, [] => []
  | fuel + 1, e :: rest =>
    if rejectedByFilter cfg e.rel then
      zipAuxSpecF cfg fuel rest
    else
      e.rel ::
        zipAuxSpecF cfg fuel
          (if e.isDir then rest ++ childEntries e.rel e.tree.childList else rest)

/-- Spec reading of the full-tree discovery, with the filter evaluated on
relative paths (see `zipAuxSpecF`). -/
def zipTraverseSpec (cfg : ZipCfg) (root : FSTree) : List FPath :=
  zipAuxSpecF cfg (qSize (childEntries [] root.childList)) (childEntries [] root.childList)

/-- The writing loop of Zip (zip.cc 218-226): for each relative path in
order, AddEntryToZip is called on `src_dir.Append(rel)`; `addOk` is the
outcome oracle for AddEntryToZip (zip.cc 57-88: open the entry, stream the
source file's chunks, close the entry).  The first failure breaks out of the
loop with `success = false`.  Returns the entries completed before any
failure together with the `success` flag. -/
def zipWriteLoop (srcDir : FPath) (addOk : FPath → Bool) : List FPath → List FPath × Bool
  | [] => ([], true)
  | p :: ps =>
    if addOk (srcDir ++ p) then
      let r := zipWriteLoop srcDir addOk ps
      (p :: r.1, r.2)
    else ([], false)

/-- Zip (zip.cc 153-234) after the destination archive opened successfully:
`files_to_add` is the explicit `files_to_zip()` list if nonempty, otherwise
the full-tree traversal result (zip.cc 181-216); the write loop runs, then
the archive is closed — a close failure forces a `false` return
(zip.cc 228-231), otherwise `success` is returned.  Result: (completed
entries, returned boolean). -/
def zipMain (cfg : ZipCfg) (root : FSTree) (addOk : FPath → Bool) (closeOk : Bool)
    (filesToZip : List FPath) : List FPath × Bool :=
  let files := if filesToZip.isEmpty then zipTraverse cfg root else filesToZip
  let r := zipWriteLoop cfg.srcDir addOk files
  (r.1, if closeOk then r.2 else false)

/-- One archive entry as the extraction loop sees it, together with the
outcome oracles of the ZipReader calls made on it.  Modelled from the spec:
the ZipReader itself (zip_reader) is not part of this source file; spec §6
"Archive Reader capability" gives `open_current_entry`,
`current_entry_is_unsafe`, `current_entry_path`, `extract_current_entry`
and `advance`, each consulted once per entry by the loop. -/
structure ZEntry where
  /-- current_entry_info()->file_path() -/
  path : FPath
  /-- current_entry_info()->is_unsafe(): the stored path escapes the
  destination (`..` segments or an absolute path). -/
  notSafe : Bool
  /-- OpenCurrentEntryInZip() outcome. -/
  openOk : Bool
  /-- ExtractCurrentEntryIntoDirectory(dest_dir) outcome; the destination
  directory only flows into this call, so its effect is carried here. -/
  extractOk : Bool
  /-- AdvanceToNextEntry() outcome. -/
  advanceOk : Bool

/-- The entry loop of UnzipWithFilterCallback (zip.cc 250-275).  Modelled
from the spec for the reader side: `has_more` holds while entries remain
(spec §4.3 "while the reader has more entries"), so the loop walks the entry
list.  Returns the fully extracted entry paths and the returned boolean.
`logSkipped` only controls logging (zip.cc 266-269) and has no observable
effect here. -/
def unzipLoop (filterCb : FPath → Bool) (logSkipped : Bool) : List ZEntry → List FPath × Bool
  | [] => ([], true)
  | e :: rest =>
    if !e.openOk then ([], false)
    else if e.notSafe then ([], false)
    else if filterCb e.path then
      if !e.extractOk then ([], false)
      else if !e.advanceOk then ([e.path], false)
      else
        let r := unzipLoop filterCb logSkipped rest
        (e.path :: r.1, r.2)
    else
      if !e.advanceOk then ([], false)
      else unzipLoop filterCb logSkipped rest

/-- UnzipWithFilterCallback (zip.cc 241-277): `none` stands for an archive
`ZipReader::Open` fails on (return `false` with nothing extracted),
otherwise the entry loop runs. -/
def unzipWithFilterCallback (archive : Option (List ZEntry)) (filterCb : FPath → Bool)
    (logSkipped : Bool) : List FPath × Bool :=
  match archive with
  | none => ([], false)
  | some entries => unzipLoop filterCb logSkipped entries

/-- Unzip (zip.cc 236-239): extraction with ExcludeNoFilesFilter and
skip-logging enabled. -/
def unzip (archive : Option (List ZEntry)) : List FPath × Bool :=
  unzipWithFilterCallback archive (fun p => excludeNoFilesFilter p) true

/-- A benign archive entry: safe, and every reader call on it succeeds. -/
def entA : ZEntry := ⟨["a.txt"], false, true, true, true⟩

/-- An archive entry whose stored path escapes the destination, so the
reader flags it (is_unsafe). -/
def entU : ZEntry := ⟨["..", "..", "etc", "passwd"], true, true, true, true⟩

/-! ## Helper lemmas -/

theorem FSTree.sz_pos (t : FSTree) : 0 < t.sz := by
  cases t <;> simp [FSTree.sz]

theorem qSize_cons (e : QEntry) (q : List QEntry) : qSize (e :: q) = e.tree.sz + qSize q := by
  simp [qSize]

theorem qSize_append (q r : List QEntry) : qSize (q ++ r) = qSize q + qSize r := by
  simp [qSize]

theorem qSize_childEntries (rel : FPath) (cs : List (String × FSTree)) :
    qSize (childEntries rel cs) = szList cs := by
  induction cs with
  | nil => simp [childEntries, qSize, szList]
  | cons a cs ih =>
    obtain ⟨n, t⟩ := a
    simp [childEntries, qSize, szList] at *
    omega

theorem szList_childList_lt (t : FSTree) : szList t.childList < t.sz := by
  cases t <;> simp [FSTree.childList, FSTree.sz, szList]

/-- With enough fuel — at least the total size of the queued subtrees — the
result of the traversal loop does not depend on the exact fuel value: the
fuel artifact of `zipAuxF` is invisible to `zipTraverse`. -/
theorem zipAuxF_fuel_irrelevant (cfg : ZipCfg) :
    ∀ f1 f2 q, qSize q ≤ f1 → qSize q ≤ f2 → zipAuxF cfg f1 q = zipAuxF cfg f2 q := by
  intro f1
  induction f1 with
  | zero =>
    intro f2 q h1 _
    match q with
    | [] => cases f2 <;> rfl
    | e :: rest =>
      exfalso
      have := FSTree.sz_pos e.tree
      rw [qSize_cons] at h1
      omega
  | succ n ih =>
    intro f2 q h1 h2
    match q with
    | [] => cases f2 <;> rfl
    | e :: rest =>
      have hpos := FSTree.sz_pos e.tree
      rw [qSize_cons] at h1 h2
      match f2 with
      | 0 => exfalso; omega
      | m + 1 =>
        simp only [zipAuxF]
        by_cases hrej : rejectedByFilter cfg (cfg.srcDir ++ e.rel) = true
        · simp only [if_pos hrej]
          exact ih m rest (by omega) (by omega)
        · simp only [if_neg hrej]
          by_cases hd : e.isDir = true
          · simp only [if_pos hd]
            have hq' : qSize (rest ++ childEntries e.rel e.tree.childList)
                = qSize rest + szList e.tree.childList := by
              rw [qSize_append, qSize_childEntries]
            have hlt := szList_childList_lt e.tree
            rw [ih m _ (by omega) (by omega)]
          · simp only [if_neg hd]
            rw [ih m rest (by omega) (by omega)]

theorem mem_childEntries (rel : FPath) (cs : List (String × FSTree)) (e : QEntry)
    (h : e ∈ childEntries rel cs) :
    ∃ n t, (n, t) ∈ cs ∧ e = ⟨rel ++ [n], t.isDirB, t⟩ := by
  induction cs with
  | nil => simp [childEntries] at h
  | cons a cs ih =>
    obtain ⟨n, t⟩ := a
    rw [childEntries, List.mem_cons] at h
    rcases h with h | h
    · exact ⟨n, t, by simp, h⟩
    · obtain ⟨n', t', hm, he⟩ := ih h
      exact ⟨n', t', by simp [hm], he⟩

/-- Totality of the path-extension order on the ancestors of a path: two
front parts of the same list are comparable. -/
theorem isPrefix_total {α : Type} :
    ∀ (l1 l2 l3 : List α), l1 <+: l3 → l2 <+: l3 → l1.length ≤ l2.length → l1 <+: l2 := by
  intro l1
  induction l1 with
  | nil => intro l2 l3 _ _ _; exact ⟨l2, rfl⟩
  | cons a l1 ih =>
    intro l2 l3 h1 h2 hlen
    match l2 with
    | [] => simp at hlen
    | b :: l2 =>
      obtain ⟨t1, ht1⟩ := h1
      obtain ⟨t2, ht2⟩ := h2
      have hab : a = b ∧ l1 ++ t1 = l2 ++ t2 := by
        have h := ht1.trans ht2.symm
        simpa using h
      obtain ⟨rfl, heq⟩ := hab
      have hp : l1 <+: l2 := ih l2 (l1 ++ t1) ⟨t1, rfl⟩ ⟨t2, heq.symm⟩ (by simpa using hlen)
      obtain ⟨t, ht⟩ := hp
      exact ⟨t, by simp [ht]⟩

theorem baseName_append (sd rel : FPath) (h : rel ≠ []) :
    baseName (sd ++ rel) = baseName rel := by
  obtain ⟨x, hx⟩ : ∃ x, rel.getLast? = some x := by
    cases hr : rel.getLast? with
    | some x => exact ⟨x, rfl⟩
    | none => exact absurd (List.getLast?_eq_none_iff.mp hr) h
  simp [baseName, List.getLast?_append, hx]

theorem isHiddenFile_append (sd rel : FPath) (h : rel ≠ []) :
    isHiddenFile (sd ++ rel) = isHiddenFile rel := by
  simp [isHiddenFile, baseName_append sd rel h]

theorem unzipLoop_all_ok (f : FPath → Bool) (l : Bool) :
    ∀ entries : List ZEntry,
      (∀ e ∈ entries,
        e.openOk = true ∧ e.notSafe = false ∧ e.extractOk = true ∧ e.advanceOk = true) →
      unzipLoop f l entries = ((entries.filter fun e => f e.path).map ZEntry.path, true) := by
  intro entries
  induction entries with
  | nil => intro _; simp [unzipLoop]
  | cons e rest ih =>
    intro h
    obtain ⟨ho, hs, hx, ha⟩ := h e (by simp)
    have hrest := ih fun e' he' => h e' (by simp [he'])
    cases hf : f e.path
    · simp [unzipLoop, ho, hs, hf, ha, hrest, List.filter_cons]
    · simp [unzipLoop, ho, hs, hf, hx, ha, hrest, List.filter_cons]

theorem zipWriteLoop_all_ok (sd : FPath) (addOk : FPath → Bool) :
    ∀ files : List FPath, (∀ p ∈ files, addOk (sd ++ p) = true) →
      zipWriteLoop sd addOk files = (files, true) := by
  intro files
  induction files with
  | nil => intro _; rfl
  | cons p ps ih =>
    intro h
    simp [zipWriteLoop, h p (by simp), ih fun q hq => h q (by simp [hq])]

theorem zipWriteLoop_failure (sd : FPath) (addOk : FPath → Bool) :
    ∀ pre (p : FPath) post, (∀ q ∈ pre, addOk (sd ++ q) = true) → addOk (sd ++ p) = false →
      zipWriteLoop sd addOk (pre ++ p :: post) = (pre, false) := by
  intro pre
  induction pre with
  | nil => intro p post _ hp; simp [zipWriteLoop, hp]
  | cons q pre ih =>
    intro p post h hp
    simp [zipWriteLoop, h q (by simp), ih p post (fun r hr => h r (by simp [hr])) hp]

/-! ## Claims -/

/-- C10: unpacking an archive that opens successfully but contains zero
entries succeeds trivially: for every filter and log flag,
UnzipWithFilterCallback returns true with nothing extracted, and hence so
does Unzip. -/
theorem unzip_empty_archive :
    (∀ (f : FPath → Bool) (l : Bool), unzipWithFilterCallback (some []) f l = ([], true)) ∧
      unzip (some []) = ([], true) :=
  ⟨fun _ _ => rfl, rfl⟩

/-- C4: a path is classified hidden iff the first character of its final
component is `.`; and with `include_hidden = false` and a caller filter
present, the traversal's rejection test accepts an entry path iff the path
is not hidden and the filter accepts it (logical AND). -/
theorem isHiddenFile_and_filter_and :
    (∀ p : FPath, isHiddenFile p = true ↔ (baseName p).data.head? = some '.') ∧
      (∀ (sd : FPath) (f : FPath → Bool) (p : FPath),
        rejectedByFilter ⟨sd, false, some f⟩ p = false ↔
          (isHiddenFile p = false ∧ f p = true)) := by
  constructor
  · intro p
    cases h : (baseName p).data with
    | nil => simp [isHiddenFile, h]
    | cons c l =>
      simp only [isHiddenFile, h, List.headD_cons, List.head?_cons, Option.some.injEq]
      exact ⟨fun hb => by simpa using hb, fun hb => by simp [hb]⟩
  · intro sd f p
    simp only [rejectedByFilter, Bool.not_false, Bool.true_and, Bool.or_eq_false_iff,
      Bool.not_eq_false']

/-- C7: during unpacking, filter rejection is not an error: if every entry of
the archive is safe and every reader call on it succeeds, the loop returns
true, the extracted entries are exactly the filter-accepted ones in order,
and no filter-rejected path is materialized. -/
theorem unzip_filter_skip_nonfatal (f : FPath → Bool) (l : Bool) (entries : List ZEntry)
    (h : ∀ e ∈ entries,
      e.openOk = true ∧ e.notSafe = false ∧ e.extractOk = true ∧ e.advanceOk = true) :
    unzipWithFilterCallback (some entries) f l
        = ((entries.filter fun e => f e.path).map ZEntry.path, true) ∧
      ∀ p : FPath, f p = false →
        p ∉ (entries.filter fun e => f e.path).map ZEntry.path := by
  refine ⟨unzipLoop_all_ok f l entries h, ?_⟩
  intro p hp hmem
  simp only [List.mem_map, List.mem_filter] at hmem
  obtain ⟨e, ⟨_, hfe⟩, hep⟩ := hmem
  rw [hep] at hfe
  rw [hp] at hfe
  exact Bool.false_ne_true hfe

/-- Witness for C7: a two-entry archive with a filter rejecting `b.txt`
succeeds, extracts only `a.txt`, and leaves `b.txt` absent. -/
theorem unzip_filter_skip_nonfatal_witness :
    (∀ e ∈ [(⟨["a.txt"], false, true, true, true⟩ : ZEntry),
            (⟨["b.txt"], false, true, true, true⟩ : ZEntry)],
      e.openOk = true ∧ e.notSafe = false ∧ e.extractOk = true ∧ e.advanceOk = true) ∧
      (unzipWithFilterCallback
            (some [(⟨["a.txt"], false, true, true, true⟩ : ZEntry),
                   (⟨["b.txt"], false, true, true, true⟩ : ZEntry)])
            (fun p => !(p == ["b.txt"])) true
          = (([(⟨["a.txt"], false, true, true, true⟩ : ZEntry),
               (⟨["b.txt"], false, true, true, true⟩ : ZEntry)].filter
                fun e => (fun p => !(p == ["b.txt"])) e.path).map ZEntry.path, true) ∧
        ∀ p : FPath, (fun p => !(p == ["b.txt"])) p = false →
          p ∉ ([(⟨["a.txt"], false, true, true, true⟩ : ZEntry),
                (⟨["b.txt"], false, true, true, true⟩ : ZEntry)].filter
                  fun e => (fun p => !(p == ["b.txt"])) e.path).map ZEntry.path) :=
  ⟨by decide, unzip_filter_skip_nonfatal (fun p => !(p == ["b.txt"])) true _ (by decide)⟩

/-- C5: with a nonempty explicit relative-file list, Zip writes exactly the
listed entries in list order — for every configuration (hidden-file policy
and caller filter unused) and every filesystem (no traversal consulted) —
provided each AddEntryToZip call succeeds and the archive closes. -/
theorem zip_explicit_list_exact (cfg : ZipCfg) (root : FSTree) (addOk : FPath → Bool)
    (closeOk : Bool) (files : List FPath) (hne : files ≠ [])
    (hok : ∀ p ∈ files, addOk (cfg.srcDir ++ p) = true) (hclose : closeOk = true) :
    zipMain cfg root addOk closeOk files = (files, true) := by
  match files, hne with
  | p :: ps, _ =>
    simp [zipMain, zipWriteLoop_all_ok cfg.srcDir addOk (p :: ps) hok, hclose]

/-- Witness for C5: the filter rejects everything and hidden files are
excluded, yet the explicit list — hidden entry included — is written
verbatim. -/
theorem zip_explicit_list_exact_witness :
    ([["a.txt"], ["sub", "b.txt"], [".hidden"]] ≠ ([] : List FPath)) ∧
      (∀ p ∈ [["a.txt"], ["sub", "b.txt"], [".hidden"]],
        (fun _ : FPath => true) (([] : FPath) ++ p) = true) ∧
      ((true : Bool) = true) ∧
      zipMain ⟨[], false, some fun _ => false⟩ (.dir [("other", .file)]) (fun _ => true) true
          [["a.txt"], ["sub", "b.txt"], [".hidden"]]
        = ([["a.txt"], ["sub", "b.txt"], [".hidden"]], true) :=
  ⟨by decide, by decide, rfl,
    zip_explicit_list_exact ⟨[], false, some fun _ => false⟩ (.dir [("other", .file)])
      (fun _ => true) true [["a.txt"], ["sub", "b.txt"], [".hidden"]]
      (by decide) (by decide) rfl⟩

/-- C9: if AddEntryToZip fails on some entry while all entries before it
succeeded, Zip stops writing — the completed entries are exactly those
before the failure, which remain in the archive — and returns false,
whatever the close outcome; in both explicit-list and full-tree modes. -/
theorem zip_add_failure_aborts (cfg : ZipCfg) (root : FSTree) (addOk : FPath → Bool)
    (closeOk : Bool) (filesToZip pre post : List FPath) (p : FPath)
    (hsplit : (if filesToZip.isEmpty then zipTraverse cfg root else filesToZip)
        = pre ++ p :: post)
    (hpre : ∀ q ∈ pre, addOk (cfg.srcDir ++ q) = true)
    (hp : addOk (cfg.srcDir ++ p) = false) :
    zipMain cfg root addOk closeOk filesToZip = (pre, false) := by
  simp only [zipMain, hsplit, zipWriteLoop_failure cfg.srcDir addOk pre p post hpre hp]
  cases closeOk <;> rfl

/-- Witness for C9: the middle entry of an explicit three-entry list fails
to add; only the first entry is written and Zip returns false. -/
theorem zip_add_failure_aborts_witness :
    ((if ([["a"], ["b"], ["c"]] : List FPath).isEmpty
        then zipTraverse ⟨[], false, none⟩ .file else [["a"], ["b"], ["c"]])
      = [["a"]] ++ ["b"] :: [["c"]]) ∧
      (∀ q ∈ [["a"]], (fun q : FPath => !(q == ["b"])) (([] : FPath) ++ q) = true) ∧
      ((fun q : FPath => !(q == ["b"])) (([] : FPath) ++ ["b"]) = false) ∧
      zipMain ⟨[], false, none⟩ .file (fun q => !(q == ["b"])) true [["a"], ["b"], ["c"]]
        = ([["a"]], false) :=
  ⟨by decide, by decide, by decide,
    zip_add_failure_aborts ⟨[], false, none⟩ .file (fun q => !(q == ["b"])) true
      [["a"], ["b"], ["c"]] [["a"]] [["c"]] ["b"] (by decide) (by decide) (by decide)⟩

theorem unzipLoop_flagged (f : FPath → Bool) (l : Bool) (u : ZEntry) (hu : u.notSafe = true) :
    ∀ pre post, (unzipLoop f l (pre ++ u :: post)).2 = false ∧
      ∀ p ∈ (unzipLoop f l (pre ++ u :: post)).1, p ∈ pre.map ZEntry.path := by
  intro pre
  induction pre with
  | nil =>
    intro post
    simp only [List.nil_append, unzipLoop]
    cases ho : u.openOk
    · simp
    · simp [hu]
  | cons e pre ih =>
    intro post
    simp only [List.cons_append, unzipLoop]
    cases ho : e.openOk
    · simp
    · cases hs : e.notSafe
      · simp only [Bool.not_true, Bool.false_eq_true, if_false, if_true]
        cases hf : f e.path
        · simp only [Bool.false_eq_true, if_false]
          cases ha : e.advanceOk
          · simp
          · simp only [Bool.not_true, Bool.false_eq_true, if_false]
            refine ⟨(ih post).1, ?_⟩
            intro p hp
            have h2 := (ih post).2 p hp
            simp only [List.map_cons, List.mem_cons]
            exact Or.inr h2
        · simp only [if_true]
          cases hx : e.extractOk
          · simp
          · simp only [Bool.not_true, Bool.false_eq_true, if_false]
            cases ha : e.advanceOk
            · simp
            · simp only [Bool.not_true, Bool.false_eq_true, if_false]
              refine ⟨(ih post).1, ?_⟩
              intro p hp
              simp only [List.mem_cons] at hp
              simp only [List.map_cons, List.mem_cons]
              rcases hp with rfl | hp
              · exact Or.inl rfl
              · exact Or.inr ((ih post).2 p hp)
      · simp

/-- C1 (amended): for every archive containing an entry the reader flags as
unsafe, UnzipWithFilterCallback returns false, and nothing at or after the
flagged entry is extracted: every extracted path belongs to an entry
strictly before it — in particular, zero files are extracted whenever the
flagged entry comes first.  (Entries extracted before the flagged entry is
reached do remain in the destination; see the counterexample.) -/
theorem unzip_flagged_entry_fails (f : FPath → Bool) (l : Bool)
    (pre post : List ZEntry) (u : ZEntry) (hu : u.notSafe = true) :
    (unzipWithFilterCallback (some (pre ++ u :: post)) f l).2 = false ∧
      ∀ p ∈ (unzipWithFilterCallback (some (pre ++ u :: post)) f l).1,
        p ∈ pre.map ZEntry.path :=
  unzipLoop_flagged f l u hu pre post

/-- Witness for C1 (amended) on a concrete two-entry archive whose second
entry is flagged. -/
theorem unzip_flagged_entry_fails_witness :
    entU.notSafe = true ∧
      ((unzipWithFilterCallback (some ([entA] ++ entU :: [])) (fun _ => true) true).2
          = false ∧
        ∀ p ∈ (unzipWithFilterCallback (some ([entA] ++ entU :: [])) (fun _ => true) true).1,
          p ∈ [entA].map ZEntry.path) :=
  ⟨by decide, unzip_flagged_entry_fails (fun _ => true) true [entA] [] entU (by decide)⟩

/-- Counterexample to C1 as stated: an archive holding a benign first entry
and a flagged second entry makes UnzipWithFilterCallback return false, but
one file — the benign entry, extracted before the flagged one was reached —
has been extracted, not zero. -/
theorem unzip_flagged_not_zero_extracted :
    entU.notSafe = true ∧
      (unzipWithFilterCallback (some [entA, entU]) (fun _ => true) true).2 = false ∧
      (unzipWithFilterCallback (some [entA, entU]) (fun _ => true) true).1 = [["a.txt"]] := by
  decide

theorem zipAuxF_ne_nil (cfg : ZipCfg) :
    ∀ fuel q, (∀ e ∈ q, e.rel ≠ []) → ∀ out ∈ zipAuxF cfg fuel q, out ≠ [] := by
  intro fuel
  induction fuel with
  | zero => intro q _ out hout; simp [zipAuxF] at hout
  | succ n ih =>
    intro q hq out hout
    match q with
    | [] => simp [zipAuxF] at hout
    | e :: rest =>
      simp only [zipAuxF] at hout
      by_cases hrej : rejectedByFilter cfg (cfg.srcDir ++ e.rel) = true
      · rw [if_pos hrej] at hout
        exact ih rest (fun e' he' => hq e' (by simp [he'])) out hout
      · rw [if_neg hrej] at hout
        rcases List.mem_cons.mp hout with rfl | hout'
        · exact hq e (by simp)
        · by_cases hd : e.isDir = true
          · rw [if_pos hd] at hout'
            refine ih _ ?_ out hout'
            intro e' he'
            rcases List.mem_append.mp he' with h | h
            · exact hq e' (by simp [h])
            · obtain ⟨n', t', _, rfl⟩ := mem_childEntries e.rel _ e' h
              simp
          · rw [if_neg hd] at hout'
            exact ih rest (fun e' he' => hq e' (by simp [he'])) out hout'

/-- C3: full-tree packing never emits an entry for the root itself: every
output entry is a proper descendant of the root, i.e. has a nonempty
relative path (so no `""` entry; the seed is never added to the output, and
being excluded from the work-list tail it is never filtered either). -/
theorem zipTraverse_proper_descendants (cfg : ZipCfg) (root : FSTree) :
    ∀ out ∈ zipTraverse cfg root, out ≠ [] := by
  intro out hout
  refine zipAuxF_ne_nil cfg _ _ ?_ out hout
  intro e he
  obtain ⟨n, t, _, rfl⟩ := mem_childEntries [] _ e he
  simp

/-- Witness for C3: the sole output entry of a concrete traversal is a child
of the root, not the root. -/
theorem zipTraverse_proper_descendants_witness :
    (["a"] ∈ zipTraverse ⟨[], true, none⟩ (.dir [("a", .file)])) ∧ (["a"] : FPath) ≠ [] :=
  ⟨by decide, zipTraverse_proper_descendants ⟨[], true, none⟩ (.dir [("a", .file)]) ["a"] (by decide)⟩

theorem zipAuxF_chain_passes (cfg : ZipCfg) :
    ∀ fuel q, ∀ out ∈ zipAuxF cfg fuel q,
      ∃ e ∈ q, e.rel <+: out ∧
        ∀ r : FPath, e.rel <+: r → r <+: out →
          rejectedByFilter cfg (cfg.srcDir ++ r) = false := by
  intro fuel
  induction fuel with
  | zero => intro q out hout; simp [zipAuxF] at hout
  | succ n ih =>
    intro q out hout
    match q with
    | [] => simp [zipAuxF] at hout
    | e :: rest =>
      simp only [zipAuxF] at hout
      by_cases hrej : rejectedByFilter cfg (cfg.srcDir ++ e.rel) = true
      · rw [if_pos hrej] at hout
        obtain ⟨e', he', hp, hr⟩ := ih rest out hout
        exact ⟨e', by simp [he'], hp, hr⟩
      · rw [if_neg hrej] at hout
        have hrejF : rejectedByFilter cfg (cfg.srcDir ++ e.rel) = false :=
          Bool.not_eq_true _ ▸ Bool.of_not_eq_true hrej
        rcases List.mem_cons.mp hout with rfl | hout'
        · refine ⟨e, by simp, ⟨[], by simp⟩, ?_⟩
          intro r h1 h2
          have hlen : r.length = e.rel.length := Nat.le_antisymm h2.length_le h1.length_le
          rw [h2.eq_of_length hlen]
          exact hrejF
        · by_cases hd : e.isDir = true
          · rw [if_pos hd] at hout'
            obtain ⟨e', he', hpre', hall'⟩ := ih _ out hout'
            rcases List.mem_append.mp he' with h | h
            · exact ⟨e', by simp [h], hpre', hall'⟩
            · obtain ⟨nm, t, _, rfl⟩ := mem_childEntries e.rel _ e' h
              refine ⟨e, by simp, ?_, ?_⟩
              · exact List.IsPrefix.trans ⟨[nm], rfl⟩ hpre'
              · intro r h1 h2
                by_cases hlen : r.length ≤ e.rel.length
                · rw [← h1.eq_of_length (Nat.le_antisymm h1.length_le hlen)]
                  exact hrejF
                · refine hall' r ?_ h2
                  refine isPrefix_total _ _ out hpre' h2 ?_
                  simp only [List.length_append, List.length_cons, List.length_nil]
                  omega
          · rw [if_neg hd] at hout'
            obtain ⟨e', he', hp, hr⟩ := ih rest out hout'
            exact ⟨e', by simp [he'], hp, hr⟩

/-- C2: subtree pruning in full-tree packing — if any nonempty relative path
is rejected by the active filter, then no output entry of the traversal has
it as a front part: the rejected directory itself is not added, and none of
its descendants appear, even ones the filter would individually accept. -/
theorem zip_subtree_pruning (cfg : ZipCfg) (root : FSTree) (d : FPath)
    (hne : d ≠ []) (hrej : rejectedByFilter cfg (cfg.srcDir ++ d) = true) :
    ∀ out ∈ zipTraverse cfg root, ¬ d <+: out := by
  intro out hout hdp
  obtain ⟨e, he, hpre, hall⟩ := zipAuxF_chain_passes cfg _ _ out hout
  obtain ⟨n, t, _, rfl⟩ := mem_childEntries [] _ e he
  have h1 : ([] ++ [n] : FPath) <+: d := by
    refine isPrefix_total _ _ out hpre hdp ?_
    have := List.length_pos.mpr hne
    simp only [List.nil_append, List.length_cons, List.length_nil]
    omega
  have hfalse := hall d h1 hdp
  rw [hrej] at hfalse
  exact Bool.false_ne_true hfalse.symm

/-- Witness for C2: directory `foo` is rejected by the filter; its
descendant `foo/bar` would pass, yet the accepted sibling `a` shows the
hypotheses are satisfiable while nothing under `foo` is emitted. -/
theorem zip_subtree_pruning_witness :
    ((["foo"] : FPath) ≠ []) ∧
      rejectedByFilter ⟨[], true, some fun p => !(p == ["foo"])⟩ ([] ++ ["foo"]) = true ∧
      ¬ (["foo"] : FPath) <+: ["a"] :=
  ⟨by decide, by decide,
    zip_subtree_pruning ⟨[], true, some fun p => !(p == ["foo"])⟩
      (.dir [("a", .dir [("x", .file)]), ("foo", .dir [("bar", .file)])]) ["foo"]
      (by decide) (by decide) ["a"] (by decide)⟩

theorem zipAuxF_levels (cfg : ZipCfg) :
    ∀ fuel q,
      q.Pairwise (fun a b => a.rel.length ≤ b.rel.length) →
      (∀ a ∈ q, ∀ b ∈ q, a.rel.length ≤ b.rel.length + 1) →
      ((zipAuxF cfg fuel q).Pairwise fun a b => a.length ≤ b.length) ∧
        ∀ out ∈ zipAuxF cfg fuel q, ∃ e ∈ q, e.rel.length ≤ out.length := by
  intro fuel
  induction fuel with
  | zero => intro q _ _; simp [zipAuxF]
  | succ n ih =>
    intro q hsort hband
    match q with
    | [] => simp [zipAuxF]
    | e :: rest =>
      simp only [zipAuxF]
      have hhead : ∀ b ∈ rest, e.rel.length ≤ b.rel.length := (List.pairwise_cons.mp hsort).1
      have hsort' := (List.pairwise_cons.mp hsort).2
      by_cases hrej : rejectedByFilter cfg (cfg.srcDir ++ e.rel) = true
      · simp only [if_pos hrej]
        have hband' : ∀ a ∈ rest, ∀ b ∈ rest, a.rel.length ≤ b.rel.length + 1 :=
          fun a ha b hb => hband a (by simp [ha]) b (by simp [hb])
        obtain ⟨h1, h2⟩ := ih rest hsort' hband'
        refine ⟨h1, fun out ho => ?_⟩
        obtain ⟨e', he', hl⟩ := h2 out ho
        exact ⟨e', by simp [he'], hl⟩
      · simp only [if_neg hrej]
        by_cases hd : e.isDir = true
        · simp only [if_pos hd]
          have hchlen : ∀ c ∈ childEntries e.rel e.tree.childList,
              c.rel.length = e.rel.length + 1 := by
            intro c hc
            obtain ⟨nm, t, _, rfl⟩ := mem_childEntries _ _ c hc
            simp
          have hsort2 : (rest ++ childEntries e.rel e.tree.childList).Pairwise
              (fun a b => a.rel.length ≤ b.rel.length) := by
            rw [List.pairwise_append]
            refine ⟨hsort', List.pairwise_of_forall_mem_list ?_, ?_⟩
            · intro a ha b hb
              rw [hchlen a ha, hchlen b hb]
            · intro a ha b hb
              have := hband a (by simp [ha]) e (by simp)
              rw [hchlen b hb]
              omega
          have hband2 : ∀ a ∈ rest ++ childEntries e.rel e.tree.childList,
              ∀ b ∈ rest ++ childEntries e.rel e.tree.childList,
              a.rel.length ≤ b.rel.length + 1 := by
            intro a ha b hb
            rcases List.mem_append.mp ha with ha' | ha' <;>
              rcases List.mem_append.mp hb with hb' | hb'
            · exact hband a (by simp [ha']) b (by simp [hb'])
            · have := hband a (by simp [ha']) e (by simp)
              rw [hchlen b hb']
              omega
            · have := hhead b hb'
              rw [hchlen a ha']
              omega
            · rw [hchlen a ha', hchlen b hb']
              omega
          obtain ⟨h1, h2⟩ := ih _ hsort2 hband2
          constructor
          · rw [List.pairwise_cons]
            refine ⟨?_, h1⟩
            intro out ho
            obtain ⟨e', he', hlen⟩ := h2 out ho
            rcases List.mem_append.mp he' with h | h
            · exact le_trans (hhead e' h) hlen
            · rw [hchlen e' h] at hlen
              omega
          · intro out ho
            rcases List.mem_cons.mp ho with rfl | ho'
            · exact ⟨e, by simp, le_refl _⟩
            · obtain ⟨e', he', hlen⟩ := h2 out ho'
              rcases List.mem_append.mp he' with h | h
              · exact ⟨e', by simp [h], hlen⟩
              · refine ⟨e, by simp, ?_⟩
                rw [hchlen e' h] at hlen
                omega
        · simp only [if_neg hd]
          have hband' : ∀ a ∈ rest, ∀ b ∈ rest, a.rel.length ≤ b.rel.length + 1 :=
            fun a ha b hb => hband a (by simp [ha]) b (by simp [hb])
          obtain ⟨h1, h2⟩ := ih rest hsort' hband'
          constructor
          · rw [List.pairwise_cons]
            refine ⟨?_, h1⟩
            intro out ho
            obtain ⟨e', he', hlen⟩ := h2 out ho
            exact le_trans (hhead e' he') hlen
          · intro out ho
            rcases List.mem_cons.mp ho with rfl | ho'
            · exact ⟨e, by simp, le_refl _⟩
            · obtain ⟨e', he', hlen⟩ := h2 out ho'
              exact ⟨e', by simp [he'], hlen⟩

/-- C8: the full-tree traversal is breadth-first — the work list is consumed
front-to-back with discovered directory listings appended at the tail — so
the output is ordered level by level: every entry appears no deeper than any
later entry; in particular all accepted children of the root precede all
accepted grandchildren, and so on. -/
theorem zip_breadth_first_levels (cfg : ZipCfg) (root : FSTree) :
    (zipTraverse cfg root).Pairwise fun a b => a.length ≤ b.length := by
  refine (zipAuxF_levels cfg _ _ ?_ ?_).1
  · refine List.pairwise_of_forall_mem_list ?_
    intro a ha b hb
    obtain ⟨n, t, _, rfl⟩ := mem_childEntries [] _ a ha
    obtain ⟨m, s, _, rfl⟩ := mem_childEntries [] _ b hb
    simp
  · intro a ha b hb
    obtain ⟨n, t, _, rfl⟩ := mem_childEntries [] _ a ha
    simp

theorem zipAuxSpecF_eq_abs (sd : FPath) (ihid : Bool) (f : FPath → Bool) :
    ∀ fuel q, (∀ e ∈ q, e.rel ≠ []) →
      zipAuxF ⟨sd, ihid, some f⟩ fuel q
        = zipAuxSpecF ⟨sd, ihid, some fun r => f (sd ++ r)⟩ fuel q := by
  intro fuel
  induction fuel with
  | zero => intro q _; rfl
  | succ n ih =>
    intro q hq
    match q with
    | [] => rfl
    | e :: rest =>
      simp only [zipAuxF, zipAuxSpecF]
      have hrel : e.rel ≠ [] := hq e (by simp)
      have hcond : rejectedByFilter ⟨sd, ihid, some f⟩ (ZipCfg.srcDir ⟨sd, ihid, some f⟩ ++ e.rel)
          = rejectedByFilter ⟨sd, ihid, some fun r => f (sd ++ r)⟩ e.rel := by
        simp [rejectedByFilter, isHiddenFile_append sd e.rel hrel]
      rw [hcond]
      by_cases hrej : rejectedByFilter ⟨sd, ihid, some fun r => f (sd ++ r)⟩ e.rel = true
      · simp only [if_pos hrej]
        exact ih rest fun e' he' => hq e' (by simp [he'])
      · simp only [if_neg hrej]
        by_cases hd : e.isDir = true
        · simp only [if_pos hd]
          rw [ih _ ?_]
          intro e' he'
          rcases List.mem_append.mp he' with h | h
          · exact hq e' (by simp [h])
          · obtain ⟨nm, t, _, rfl⟩ := mem_childEntries e.rel _ e' h
            simp
        · simp only [if_neg hd]
          rw [ih rest fun e' he' => hq e' (by simp [he'])]

/-- Counterexample to C6 as stated: with source directory `d`, a file `a`
under it, and a caller filter accepting exactly the absolute path `d/a`
(hence rejecting the relative path `a`), the code includes `a` while the
relative-path reading of the traversal excludes it — the filter is not
evaluated on the path relative to source_directory. -/
theorem zip_filter_not_relative_path :
    zipTraverse ⟨["d"], true, some fun p => p == ["d", "a"]⟩ (.dir [("a", .file)])
      ≠ zipTraverseSpec ⟨["d"], true, some fun p => p == ["d", "a"]⟩ (.dir [("a", .file)]) := by
  decide

/-- C6 (amended): during full-tree packing the active filter is evaluated on
each entry's absolute path (source_directory joined with the relative path),
not on the relative path: the traversal coincides with the spec's
relative-path formulation exactly when the caller filter is precomposed with
that join (the hidden-file rule is unaffected, acting on the basename, which
the join preserves). -/
theorem zip_filter_absolute_path (sd : FPath) (ihid : Bool) (f : FPath → Bool) (root : FSTree) :
    zipTraverse ⟨sd, ihid, some f⟩ root
      = zipTraverseSpec ⟨sd, ihid, some fun r => f (sd ++ r)⟩ root := by
  simp only [zipTraverse, zipTraverseSpec]
  refine zipAuxSpecF_eq_abs sd ihid f _ _ ?_
  intro e he
  obtain ⟨n, t, _, rfl⟩ := mem_childEntries [] _ e he
  simp

end GoogleZip
